import Mathlib

/-!
# TetraBalance geometry-synthesis core: shallow embedding and verification

This file embeds the geometry-synthesis core of `src/app.js` (the TetraBalance
piece generator) into Lean and proves the specification's claims about it.

The embedded functions are `pieces` (the piece catalog), `exposedFacesFor`
(lateral-face exposure classification), `createBlock` (per-cube boundary
mesh), `addInternalWalls` (partitions between same-height adjacent cubes),
and `generateNewPiece` (assembly, centering and scene mounting), together
with the occupancy index both builders construct from a coordinate list.

Conventions of the embedding:
* JS numbers on the coordinate paths are integers, embedded as `Int`; the
  geometric positions and sizes (`1.0`, `0.05`, `0.0015`, halves) are
  embedded as exact rationals.
* The occupancy index is a JS `Set` of strings `` x,z,h `` (template literal
  of the three numbers joined by commas); it is embedded as a `Finset String`
  keyed by exactly that string, built with Lean's decimal rendering of `Int`,
  which agrees with JS number-to-string output on integers.
* Rotations only ever occur about the y axis and only by quarter turns; a
  primitive's `rotY` field stores the rotation in units of π (so the JS
  `rotation.y = Math.PI / 2` is stored as `1/2`).
-/

namespace TetraBalance

/-! ## Decimal digit strings

The JS occupancy key for a cube is the string `` `${x},${z},${h}` ``.  To
reason about the key set we first show that this keying is injective: the
decimal rendering of an integer consists of digit characters (plus a leading
minus sign), never a comma, and decimal rendering itself is injective.  We
prove the latter by exhibiting a decoding function that is a left inverse of
`Nat.toDigits 10`.
-/

/-- Numeric value of a decimal digit character: the inverse of
`Nat.digitChar` on values below 10. -/
def digitVal (c : Char) : Nat := c.toNat - 48

/-- Decode a list of decimal digit characters, most significant first,
continuing from accumulated value `a`. -/
def decodeFrom (a : Nat) (l : List Char) : Nat :=
  l.foldl (fun b c => 10 * b + digitVal c) a

theorem decodeFrom_append (a : Nat) (l₁ l₂ : List Char) :
    decodeFrom a (l₁ ++ l₂) = decodeFrom (decodeFrom a l₁) l₂ := by
  simp [decodeFrom, List.foldl_append]

theorem digitVal_digitChar {d : Nat} (hd : d < 10) :
    digitVal (Nat.digitChar d) = d := by
  interval_cases d <;> rfl

theorem digitChar_ne_comma {d : Nat} (hd : d < 10) : Nat.digitChar d ≠ ',' := by
  interval_cases d <;> decide

theorem digitChar_ne_minus {d : Nat} (hd : d < 10) : Nat.digitChar d ≠ '-' := by
  interval_cases d <;> decide

/-- Running `Nat.toDigitsCore` on an accumulator prepends the digits computed
on the empty accumulator. -/
theorem toDigitsCore_eq_append (b : Nat) :
    ∀ (f n : Nat) (acc : List Char),
      Nat.toDigitsCore b f n acc = Nat.toDigitsCore b f n [] ++ acc := by
  intro f
  induction f with
  | zero => intro n acc; simp [Nat.toDigitsCore]
  | succ f ih =>
    intro n acc
    simp only [Nat.toDigitsCore]
    by_cases h : n / b = 0
    · rw [if_pos h, if_pos h]; rfl
    · rw [if_neg h, if_neg h]
      rw [ih (n / b) (Nat.digitChar (n % b) :: acc),
        ih (n / b) [Nat.digitChar (n % b)]]
      simp

/-- Every character produced by `Nat.toDigitsCore 10` is a decimal digit
character or comes from the accumulator. -/
theorem mem_toDigitsCore (f : Nat) :
    ∀ (n : Nat) (acc : List Char) (c : Char),
      c ∈ Nat.toDigitsCore 10 f n acc →
      (∃ d, d < 10 ∧ c = Nat.digitChar d) ∨ c ∈ acc := by
  induction f with
  | zero => intro n acc c hc; exact Or.inr hc
  | succ f ih =>
    intro n acc c hc
    simp only [Nat.toDigitsCore] at hc
    by_cases h : n / 10 = 0
    · rw [if_pos h] at hc
      rcases List.mem_cons.mp hc with hc | hc
      · exact Or.inl ⟨n % 10, Nat.mod_lt n (by decide), hc⟩
      · exact Or.inr hc
    · rw [if_neg h] at hc
      rcases ih (n / 10) (Nat.digitChar (n % 10) :: acc) c hc with hd | hd
      · exact Or.inl hd
      · rcases List.mem_cons.mp hd with hd | hd
        · exact Or.inl ⟨n % 10, Nat.mod_lt n (by decide), hd⟩
        · exact Or.inr hd

theorem toDigitsCore_ne_nil (b : Nat) :
    ∀ (f n : Nat) (acc : List Char), acc ≠ [] →
      Nat.toDigitsCore b f n acc ≠ [] := by
  intro f
  induction f with
  | zero => intro n acc h; simpa [Nat.toDigitsCore] using h
  | succ f ih =>
    intro n acc h
    simp only [Nat.toDigitsCore]
    by_cases hn : n / b = 0
    · rw [if_pos hn]; exact List.cons_ne_nil _ _
    · rw [if_neg hn]; exact ih (n / b) _ (List.cons_ne_nil _ _)

theorem toDigits_ne_nil (n : Nat) : Nat.toDigits 10 n ≠ [] := by
  show Nat.toDigitsCore 10 (n + 1) n [] ≠ []
  simp only [Nat.toDigitsCore]
  by_cases hn : n / 10 = 0
  · rw [if_pos hn]; exact List.cons_ne_nil _ _
  · rw [if_neg hn]; exact toDigitsCore_ne_nil 10 n (n / 10) _ (List.cons_ne_nil _ _)

/-- Decoding is a left inverse of `Nat.toDigitsCore 10` (with enough fuel). -/
theorem decodeFrom_toDigitsCore :
    ∀ (f n : Nat), n < f → decodeFrom 0 (Nat.toDigitsCore 10 f n []) = n := by
  intro f
  induction f with
  | zero => intro n hn; omega
  | succ f ih =>
    intro n hn
    simp only [Nat.toDigitsCore]
    by_cases h : n / 10 = 0
    · rw [if_pos h]
      have h10 : n < 10 := by
        by_contra hge
        have : 1 ≤ n / 10 := (Nat.one_le_div_iff (by decide)).mpr (by omega)
        omega
      have : n % 10 = n := Nat.mod_eq_of_lt h10
      simp [decodeFrom, this, digitVal_digitChar h10]
    · rw [if_neg h]
      rw [toDigitsCore_eq_append 10 f (n / 10) [Nat.digitChar (n % 10)]]
      rw [decodeFrom_append]
      have hlt : n / 10 < f := by
        have h1 : n / 10 < n := Nat.div_lt_self (by omega) (by decide)
        omega
      rw [ih (n / 10) hlt]
      have hm : n % 10 < 10 := Nat.mod_lt n (by decide)
      simp [decodeFrom, digitVal_digitChar hm]
      omega

theorem decode_toDigits (n : Nat) : decodeFrom 0 (Nat.toDigits 10 n) = n :=
  decodeFrom_toDigitsCore (n + 1) n (Nat.lt_succ_self n)

theorem toDigits_injective {m n : Nat}
    (h : Nat.toDigits 10 m = Nat.toDigits 10 n) : m = n := by
  have hm := decode_toDigits m
  have hn := decode_toDigits n
  rw [h] at hm
  omega

theorem mem_toDigits_isDigit {n : Nat} {c : Char} (hc : c ∈ Nat.toDigits 10 n) :
    ∃ d, d < 10 ∧ c = Nat.digitChar d := by
  rcases mem_toDigitsCore (n + 1) n [] c hc with h | h
  · exact h
  · cases h

theorem comma_not_mem_toDigits (n : Nat) : ',' ∉ Nat.toDigits 10 n := by
  intro hc
  rcases mem_toDigits_isDigit hc with ⟨d, hd, hcd⟩
  exact digitChar_ne_comma hd hcd.symm

theorem minus_not_mem_toDigits (n : Nat) : '-' ∉ Nat.toDigits 10 n := by
  intro hc
  rcases mem_toDigits_isDigit hc with ⟨d, hd, hcd⟩
  exact digitChar_ne_minus hd hcd.symm

/-! ### The decimal rendering of `Int` -/

/-- The character list underlying the decimal rendering of a nonnegative
integer. -/
theorem intString_data_ofNat (m : Nat) :
    (toString (Int.ofNat m)).data = Nat.toDigits 10 m := rfl

/-- The character list underlying the decimal rendering of a negative
integer. -/
theorem intString_data_negSucc (m : Nat) :
    (toString (Int.negSucc m)).data = '-' :: Nat.toDigits 10 (m + 1) := rfl

theorem comma_not_mem_intString (i : Int) : ',' ∉ (toString i).data := by
  cases i with
  | ofNat m => rw [intString_data_ofNat]; exact comma_not_mem_toDigits m
  | negSucc m =>
    rw [intString_data_negSucc]
    intro hc
    rcases List.mem_cons.mp hc with hc | hc
    · exact absurd hc (by decide)
    · exact comma_not_mem_toDigits (m + 1) hc

theorem intString_injective {i j : Int} (h : (toString i).data = (toString j).data) :
    i = j := by
  cases i with
  | ofNat m =>
    cases j with
    | ofNat n =>
      rw [intString_data_ofNat, intString_data_ofNat] at h
      exact congrArg Int.ofNat (toDigits_injective h)
    | negSucc n =>
      rw [intString_data_ofNat, intString_data_negSucc] at h
      exfalso
      apply minus_not_mem_toDigits m
      rw [h]
      exact List.mem_cons_self _ _
  | negSucc m =>
    cases j with
    | ofNat n =>
      rw [intString_data_negSucc, intString_data_ofNat] at h
      exfalso
      apply minus_not_mem_toDigits n
      rw [← h]
      exact List.mem_cons_self _ _
    | negSucc n =>
      rw [intString_data_negSucc, intString_data_negSucc] at h
      have h2 : Nat.toDigits 10 (m + 1) = Nat.toDigits 10 (n + 1) := by
        injection h
      have hmn : m + 1 = n + 1 := toDigits_injective h2
      have : m = n := by omega
      rw [this]

/-! ## The occupancy key

`key x z h` embeds the JS template literal `` `${x},${z},${h}` `` used as the
element of the occupancy `Set`. -/

/-- The occupancy key of a cube coordinate, exactly the string the JS code
puts into its `Set`. -/
def key (x z h : Int) : String :=
  toString x ++ "," ++ toString z ++ "," ++ toString h

/-- Splitting a character list at the first comma is unambiguous when the
left parts contain no comma. -/
theorem comma_split_injective :
    ∀ {A₁ A₂ R₁ R₂ : List Char}, ',' ∉ A₁ → ',' ∉ A₂ →
      A₁ ++ ',' :: R₁ = A₂ ++ ',' :: R₂ → A₁ = A₂ ∧ R₁ = R₂ := by
  intro A₁
  induction A₁ with
  | nil =>
    intro A₂ R₁ R₂ _ hA₂ h
    cases A₂ with
    | nil => simpa using h
    | cons a tl =>
      exfalso
      simp only [List.nil_append, List.cons_append, List.cons.injEq] at h
      exact hA₂ (h.1 ▸ List.mem_cons_self _ _)
  | cons a tl ih =>
    intro A₂ R₁ R₂ hA₁ hA₂ h
    cases A₂ with
    | nil =>
      exfalso
      simp only [List.nil_append, List.cons_append, List.cons.injEq] at h
      exact hA₁ (h.1 ▸ List.mem_cons_self _ _)
    | cons b tl₂ =>
      simp only [List.cons_append, List.cons.injEq] at h
      have htl := ih (fun hm => hA₁ (List.mem_cons_of_mem a hm))
        (fun hm => hA₂ (List.mem_cons_of_mem b hm)) h.2
      exact ⟨by rw [h.1, htl.1], htl.2⟩

theorem key_data (x z h : Int) :
    (key x z h).data =
      (toString x).data ++ ',' :: ((toString z).data ++ ',' :: (toString h).data) := by
  simp [key, String.data_append]

/-- The occupancy key is injective: distinct cube coordinates receive
distinct strings. -/
theorem key_injective {x₁ z₁ h₁ x₂ z₂ h₂ : Int}
    (h : key x₁ z₁ h₁ = key x₂ z₂ h₂) : x₁ = x₂ ∧ z₁ = z₂ ∧ h₁ = h₂ := by
  have hd : (key x₁ z₁ h₁).data = (key x₂ z₂ h₂).data := by rw [h]
  rw [key_data, key_data] at hd
  have h1 := comma_split_injective (comma_not_mem_intString x₁)
    (comma_not_mem_intString x₂) hd
  have h2 := comma_split_injective (comma_not_mem_intString z₁)
    (comma_not_mem_intString z₂) h1.2
  exact ⟨intString_injective h1.1, intString_injective h2.1,
    intString_injective h2.2⟩

/-! ## Data model: cube coordinates and the occupancy index -/

/-- A cube coordinate as written in a piece definition: `[x, z, h]`.  The JS
destructuring patterns `[x, z, h = 0]` allow the height entry to be omitted,
defaulting it to 0, so the height is optional here. -/
structure RawCoord where
  x : Int
  z : Int
  h : Option Int
deriving DecidableEq

/-- A fully-determined cube coordinate (height present). -/
@[ext]
structure Coord where
  x : Int
  z : Int
  h : Int
deriving DecidableEq

/-- Height defaulting: the coordinate a raw piece entry denotes, with the JS
destructuring default `h = 0` applied. -/
def RawCoord.norm (c : RawCoord) : Coord :=
  ⟨c.x, c.z, c.h.getD 0⟩

/-- The occupancy key of a (normalized) coordinate. -/
def Coord.key (c : Coord) : String := TetraBalance.key c.x c.z c.h

theorem Coord.key_inj : Function.Injective Coord.key := by
  intro a b hab
  rcases TetraBalance.key_injective hab with ⟨h1, h2, h3⟩
  cases a; cases b
  simp_all

/-- The occupancy index: the JS
`new Set(coords.map(([x, z, h = 0]) => key(x, z, h)))` built by both
`addInternalWalls` and `generateNewPiece`. -/
def occOf (coords : List RawCoord) : Finset String :=
  (coords.map fun c => c.norm.key).toFinset

/-- Membership in the occupancy index is membership of the normalized
coordinate in the source list: the string keying introduces no collisions. -/
theorem mem_occOf (coords : List RawCoord) (x z h : Int) :
    key x z h ∈ occOf coords ↔ (⟨x, z, h⟩ : Coord) ∈ coords.map RawCoord.norm := by
  simp only [occOf, List.mem_toFinset, List.mem_map]
  constructor
  · rintro ⟨c, hc, hk⟩
    have : (⟨x, z, h⟩ : Coord) = c.norm := Coord.key_inj hk.symm
    exact ⟨c, hc, this.symm⟩
  · rintro ⟨c, hc, hk⟩
    exact ⟨c, hc, by rw [hk]; rfl⟩

/-! ## Exposure classification (`exposedFacesFor`) -/

/-- `exposedFacesFor([x, z, h], occ3D)` from `src/app.js`: pushes `front`,
`back`, `left`, `right` in this order, one for each lateral neighbor key
absent from the occupancy set; top and bottom are never tested. -/
def exposedFacesFor (x z h : Int) (occ3D : Finset String) : List String :=
  (if key x (z + 1) h ∈ occ3D then [] else ["front"]) ++
    (if key x (z - 1) h ∈ occ3D then [] else ["back"]) ++
      (if key (x - 1) z h ∈ occ3D then [] else ["left"]) ++
        (if key (x + 1) z h ∈ occ3D then [] else ["right"])

/-! ## Scene primitives

A `Prim` is one THREE mesh created by the generator: a geometry, a position
relative to its group, a rotation about the y axis (always a quarter turn,
stored in units of π), a material, and — for the side panels of a block —
the face name passed to `addFace`. -/

/-- A material: its color and whether it renders both sides
(`THREE.DoubleSide`). -/
structure Material where
  color : Nat
  doubleSide : Bool
deriving DecidableEq

/-- `new THREE.MeshLambertMaterial({ color })` with default (single) side. -/
def lambert (c : Nat) : Material := ⟨c, false⟩

/-- The face material both builders derive from their input material:
same color, `side: THREE.DoubleSide`. -/
def faceMatOf (m : Material) : Material := ⟨m.color, true⟩

/-- A mesh geometry as used by the generator: `THREE.BoxGeometry` with its
three sizes, or `THREE.PlaneGeometry` (an xy-plane rectangle) with its width
and height. -/
inductive Geom where
  | box (sx sy sz : ℚ)
  | plane (w h : ℚ)
deriving DecidableEq

/-- A point or translation in scene space. -/
@[ext]
structure Vec3 where
  x : ℚ
  y : ℚ
  z : ℚ
deriving DecidableEq

def Vec3.add (a b : Vec3) : Vec3 := ⟨a.x + b.x, a.y + b.y, a.z + b.z⟩

def Vec3.sub (a b : Vec3) : Vec3 := ⟨a.x - b.x, a.y - b.y, a.z - b.z⟩

def Vec3.neg (a : Vec3) : Vec3 := ⟨-a.x, -a.y, -a.z⟩

/-- One generated mesh.  `rotY` is `rotation.y` in units of π.  `tag` records
the `where` argument for panels created by `addFace`, `none` otherwise. -/
structure Prim where
  geom : Geom
  pos : Vec3
  rotY : ℚ
  mat : Material
  tag : Option String
deriving DecidableEq

def translatePrim (v : Vec3) (p : Prim) : Prim :=
  { p with pos := p.pos.add v }

/-! ## Block mesh building (`createBlock`) -/

/-- `size = 1.0`, the cube size. -/
def size : ℚ := 1

/-- `t = 0.05`, the bar thickness. -/
def thick : ℚ := 1 / 20

/-- `EPS = 0.0015`, the outward offset of side panels. -/
def EPS : ℚ := 3 / 2000

/-- `new THREE.BoxGeometry(size, t, t)`. -/
def horiz : Geom := .box size thick thick

/-- `new THREE.BoxGeometry(t, t, size)`. -/
def depth : Geom := .box thick thick size

/-- `new THREE.BoxGeometry(t, size, t)`. -/
def vert : Geom := .box thick size thick

/-- `new THREE.PlaneGeometry(size, size)`. -/
def faceGeom : Geom := .plane size size

/-- `addBar(geom, x, y, z)`: a bar mesh at the given offset, no rotation. -/
def mkBar (g : Geom) (x y z : ℚ) (barMat : Material) : Prim :=
  ⟨g, ⟨x, y, z⟩, 0, barMat, none⟩

/-- `addFace(where)`: one side panel, positioned a hair outside the
corresponding cube face and rotated about y so its front faces outward
(front: +z, rot 0; back: −z, rot π; left: −x, rot π/2; right: +x, rot −π/2).
The four position/rotation cases are mutually exclusive string tests. -/
def addFace (w : String) (faceMat : Material) : Prim :=
  if w = "front" then ⟨faceGeom, ⟨0, 0, size / 2 + EPS⟩, 0, faceMat, some w⟩
  else if w = "back" then ⟨faceGeom, ⟨0, 0, -(size / 2) - EPS⟩, 1, faceMat, some w⟩
  else if w = "left" then ⟨faceGeom, ⟨-(size / 2) - EPS, 0, 0⟩, 1 / 2, faceMat, some w⟩
  else if w = "right" then ⟨faceGeom, ⟨size / 2 + EPS, 0, 0⟩, -(1 / 2), faceMat, some w⟩
  else ⟨faceGeom, ⟨0, 0, 0⟩, 0, faceMat, some w⟩

/-- `createBlock(exposedFaces, material)`: the 12 edge bars (4 bottom, 4 top,
4 vertical, in source order), then one side panel per entry of
`exposedFaces` that names one of the four lateral faces. -/
def createBlock (exposedFaces : List String) (material : Material) : List Prim :=
  let barMat := material
  let faceMat := faceMatOf material
  [mkBar horiz 0 (-(size / 2)) (size / 2) barMat,
      mkBar horiz 0 (-(size / 2)) (-(size / 2)) barMat,
      mkBar depth (size / 2) (-(size / 2)) 0 barMat,
      mkBar depth (-(size / 2)) (-(size / 2)) 0 barMat,
      mkBar horiz 0 (size / 2) (size / 2) barMat,
      mkBar horiz 0 (size / 2) (-(size / 2)) barMat,
      mkBar depth (size / 2) (size / 2) 0 barMat,
      mkBar depth (-(size / 2)) (size / 2) 0 barMat,
      mkBar vert (size / 2) 0 (size / 2) barMat,
      mkBar vert (-(size / 2)) 0 (size / 2) barMat,
      mkBar vert (size / 2) 0 (-(size / 2)) barMat,
      mkBar vert (-(size / 2)) 0 (-(size / 2)) barMat] ++
    (exposedFaces.filter fun f =>
        f == "front" || f == "back" || f == "left" || f == "right").map
      (fun f => addFace f faceMat)

/-! ## Internal partitions (`addInternalWalls`) -/

/-- `new THREE.PlaneGeometry(1.0, 1.0)`, the partition panel geometry. -/
def innerGeom : Geom := .plane 1 1

/-- The partition between `(x,z,h)` and `(x+1,z,h)`: a panel parallel to the
Y–Z plane at `(x + 0.5, h, z)` (`rotation.y = π/2`). -/
def xWall (x z h : Int) (faceMat : Material) : Prim :=
  ⟨innerGeom, ⟨(x : ℚ) + 1 / 2, (h : ℚ), (z : ℚ)⟩, 1 / 2, faceMat, none⟩

/-- The partition between `(x,z,h)` and `(x,z+1,h)`: a panel parallel to the
X–Y plane at `(x, h, z + 0.5)` (no rotation). -/
def zWall (x z h : Int) (faceMat : Material) : Prim :=
  ⟨innerGeom, ⟨(x : ℚ), (h : ℚ), (z : ℚ) + 1 / 2⟩, 0, faceMat, none⟩

/-- `addInternalWalls(pieceCoords, group, colorMat)`: builds its own
occupancy set from `pieceCoords` and, for each listed cube, adds a partition
toward its `+x` neighbor and toward its `+z` neighbor when occupied.  No
other directions (in particular no vertical neighbors) are scanned.  Returns
the meshes added to the group, in source order. -/
def addInternalWalls (pieceCoords : List RawCoord) (colorMat : Material) : List Prim :=
  let occ3D := occOf pieceCoords
  let faceMat := faceMatOf colorMat
  pieceCoords.flatMap fun c =>
    let x := c.x
    let z := c.z
    let h := c.h.getD 0
    (if key (x + 1) z h ∈ occ3D then [xWall x z h faceMat] else []) ++
      (if key x (z + 1) h ∈ occ3D then [zWall x z h faceMat] else [])

/-! ## The piece catalog -/

/-- Shorthand for a catalog entry `[x, z, h]`. -/
def coord (x z h : Int) : RawCoord := ⟨x, z, some h⟩

/-- The fixed piece catalog `pieces` from `src/app.js`. -/
def pieces : List (List RawCoord) :=
  [[coord 0 0 0, coord 1 0 0, coord 2 0 0, coord 3 0 0],
    [coord 0 0 0, coord 1 0 0, coord 2 0 0, coord 2 1 0],
    [coord 0 0 0, coord 1 0 0, coord 2 0 0, coord 1 1 0],
    [coord 0 0 0, coord 1 0 0, coord 1 1 0, coord 2 1 0],
    [coord 0 0 0, coord 1 0 0, coord 0 1 0, coord 1 1 0],
    [coord 0 0 0, coord 1 0 0, coord 1 1 0, coord 1 0 1],
    [coord 0 0 0, coord 1 0 0, coord 1 1 0, coord 0 0 1]]

/-! ## Piece assembly and centering (`generateNewPiece`, geometric part) -/

/-- The loop body of `generateNewPiece`: every cube's block, with the block
group placed at `(x, h, z)`, followed by the internal partitions.  Positions
are in piece-group space. -/
def assemblePiece (data : List RawCoord) : List Prim :=
  let occ3D := occOf data
  let material := lambert 0xe74c3c
  (data.flatMap fun c =>
      (createBlock (exposedFacesFor c.x c.z (c.h.getD 0) occ3D) material).map
        (translatePrim ⟨(c.x : ℚ), ((c.h.getD 0 : Int) : ℚ), (c.z : ℚ)⟩)) ++
    addInternalWalls data material

/-- An axis-aligned box, as `THREE.Box3`. -/
structure Box where
  min : Vec3
  max : Vec3
deriving DecidableEq

/-- Axis-aligned half extents of a primitive's geometry after its rotation.
The generator only rotates about y and only by quarter turns; a ±π/2 turn
swaps the x and z extents.  A plane has zero thickness. -/
def halfExtents (p : Prim) : Vec3 :=
  let e : ℚ × ℚ × ℚ :=
    match p.geom with
    | .box sx sy sz => (sx / 2, sy / 2, sz / 2)
    | .plane w h => (w / 2, h / 2, 0)
  if p.rotY = 1 / 2 ∨ p.rotY = -(1 / 2) then ⟨e.2.2, e.2.1, e.1⟩
  else ⟨e.1, e.2.1, e.2.2⟩

/-- The axis-aligned box of one primitive. -/
def primBox (p : Prim) : Box :=
  ⟨p.pos.sub (halfExtents p), p.pos.add (halfExtents p)⟩

/-- `Box3.union`, as used by `setFromObject` to expand over a subtree. -/
def unionBox (a b : Box) : Box :=
  ⟨⟨min a.min.x b.min.x, min a.min.y b.min.y, min a.min.z b.min.z⟩,
    ⟨max a.max.x b.max.x, max a.max.y b.max.y, max a.max.z b.max.z⟩⟩

/-- `new THREE.Box3().setFromObject(group)`: the union of the boxes of all
meshes in the group; `none` for an empty group. -/
def bboxOf : List Prim → Option Box
  | [] => none
  | p :: ps => some ((ps.map primBox).foldl unionBox (primBox p))

/-- `box.getCenter(...)`: the midpoint of the box. -/
def centerOf (b : Box) : Vec3 :=
  ⟨(b.min.x + b.max.x) / 2, (b.min.y + b.max.y) / 2, (b.min.z + b.max.z) / 2⟩

/-- `currentPiece.position.sub(center)`: the piece group is translated by the
negative of its bounding-box center, so the world position of every mesh
shifts by `-center`. -/
def centerPiece (prims : List Prim) : List Prim :=
  match bboxOf prims with
  | none => prims
  | some b => prims.map (translatePrim (centerOf b).neg)

/-- The geometry `generateNewPiece` produces for piece definition `data`,
in world coordinates after the centering translation. -/
def generatedPiece (data : List RawCoord) : List Prim :=
  centerPiece (assemblePiece data)

/-! ## Scene state and the full `generateNewPiece`

The module-level mutable state of `app.js` that the generator touches:
`scene`, `currentPiece` and `pivot`.  THREE objects are identified by ids
drawn from a counter; `sceneChildren` is the scene's direct child list,
`links` the parent→child attachments the generator creates (each pivot's
children), `pivotRot` the rotation of the current pivot (a fresh
`THREE.Group` starts with identity rotation; drag handlers and the
animation loop mutate it), and `pieceGeom` the world-space geometry of the
current piece. -/
structure AppState where
  counter : Nat
  currentPiece : Option Nat
  pivot : Option Nat
  sceneChildren : List Nat
  links : List (Nat × Nat)
  pivotRot : ℚ × ℚ
  pieceGeom : List Prim

/-- `scene.remove(obj)` (`THREE.Object3D.remove`): splices `obj` out of the
child list at its first index when present; otherwise a no-op — in
particular removing an object that is attached elsewhere does nothing. -/
def sceneRemove (children : List Nat) (id : Nat) : List Nat :=
  children.erase id

/-- `generateNewPiece()` with the randomly selected catalog entry passed in
as `data`: remove the (possibly non-child) current piece from the scene,
build and center the new piece group, replace the pivot, mount the piece
under the fresh pivot and attach the pivot to the scene. -/
def generateNewPiece (data : List RawCoord) (s : AppState) : AppState :=
  let sc₁ := match s.currentPiece with
    | some p => sceneRemove s.sceneChildren p
    | none => s.sceneChildren
  let pieceId := s.counter
  let prims := centerPiece (assemblePiece data)
  let sc₂ := match s.pivot with
    | some q => sceneRemove sc₁ q
    | none => sc₁
  let pivotId := s.counter + 1
  { counter := s.counter + 2
    currentPiece := some pieceId
    pivot := some pivotId
    sceneChildren := sc₂ ++ [pivotId]
    links := s.links ++ [(pivotId, pieceId)]
    pivotRot := (0, 0)
    pieceGeom := prims }

/-- The state before the first generation: empty scene (the static lights
and ground are outside the generator's object pool), no piece, no pivot. -/
def initState : AppState :=
  ⟨0, none, none, [], [], (0, 0), []⟩

/-- `N` successive `generateNewPiece()` calls with the given selections. -/
def runGen (datas : List (List RawCoord)) (s : AppState) : AppState :=
  datas.foldl (fun st d => generateNewPiece d st) s

/-- The children of object `id` among the generator's attachments. -/
def childrenOf (links : List (Nat × Nat)) (id : Nat) : List Nat :=
  (links.filter (fun e => e.1 == id)).map Prod.snd

/-- All generator objects attached to the scene, directly or through a
pivot (the generator nests at most one level below the scene). -/
def attachedTo (s : AppState) : List Nat :=
  s.sceneChildren ++ s.sceneChildren.flatMap (childrenOf s.links)

/-! ## Derived classifiers used by the statements -/

/-- Is this string one of the four lateral face names? -/
def isLateral (f : String) : Bool :=
  f == "front" || f == "back" || f == "left" || f == "right"

/-- An edge bar: a mesh with box geometry. -/
def Prim.isBar (p : Prim) : Bool :=
  match p.geom with
  | .box _ _ _ => true
  | .plane _ _ => false

/-- A panel: a mesh with plane geometry. -/
def Prim.isPanel (p : Prim) : Bool :=
  match p.geom with
  | .box _ _ _ => false
  | .plane _ _ => true

/-- The `+x` neighbor at the same height. -/
def xNbr (a : Coord) : Coord := ⟨a.x + 1, a.z, a.h⟩

/-- The `+z` neighbor at the same height. -/
def zNbr (a : Coord) : Coord := ⟨a.x, a.z + 1, a.h⟩

/-- Two cubes are same-height axis-adjacent: equal heights, and they differ
by exactly 1 in x or in z while agreeing on the other axis. -/
def sameHeightAdjacent (a b : Coord) : Prop :=
  a.h = b.h ∧
    ((a.z = b.z ∧ (a.x = b.x + 1 ∨ b.x = a.x + 1)) ∨
      (a.x = b.x ∧ (a.z = b.z + 1 ∨ b.z = a.z + 1)))

instance (a b : Coord) : Decidable (sameHeightAdjacent a b) := by
  unfold sameHeightAdjacent
  infer_instance

/-- The number of ordered same-height axis-adjacent pairs over a cube set;
adjacency is symmetric and irreflexive, so this is twice the number of
unordered adjacent pairs. -/
def adjacentPairCount (S : Finset Coord) : Nat :=
  ((S ×ˢ S).filter fun p => sameHeightAdjacent p.1 p.2).card

/-! ## Claim C1: exposure classification -/

/-- Claim C1: for every occupancy index built from a piece's coordinate list
and every integer cube coordinate, the exposed-face list contains `front`
iff the (height-defaulted) coordinate list lacks `(x, z+1, h)`, `back` iff
it lacks `(x, z-1, h)`, `left` iff it lacks `(x-1, z, h)`, and `right` iff
it lacks `(x+1, z, h)`; total on all integer inputs. -/
theorem exposedFacesFor_mem_iff (coords : List RawCoord) (x z h : Int) :
    ("front" ∈ exposedFacesFor x z h (occOf coords) ↔
        (⟨x, z + 1, h⟩ : Coord) ∉ coords.map RawCoord.norm) ∧
      ("back" ∈ exposedFacesFor x z h (occOf coords) ↔
        (⟨x, z - 1, h⟩ : Coord) ∉ coords.map RawCoord.norm) ∧
      ("left" ∈ exposedFacesFor x z h (occOf coords) ↔
        (⟨x - 1, z, h⟩ : Coord) ∉ coords.map RawCoord.norm) ∧
      ("right" ∈ exposedFacesFor x z h (occOf coords) ↔
        (⟨x + 1, z, h⟩ : Coord) ∉ coords.map RawCoord.norm) := by
  rw [← mem_occOf coords x (z + 1) h, ← mem_occOf coords x (z - 1) h,
    ← mem_occOf coords (x - 1) z h, ← mem_occOf coords (x + 1) z h]
  by_cases h1 : key x (z + 1) h ∈ occOf coords <;>
    by_cases h2 : key x (z - 1) h ∈ occOf coords <;>
      by_cases h3 : key (x - 1) z h ∈ occOf coords <;>
        by_cases h4 : key (x + 1) z h ∈ occOf coords <;>
          simp [exposedFacesFor, h1, h2, h3, h4]

/-! ## Claim C3: top and bottom never exist -/

/-- Claim C3: the exposure classifier only ever returns lateral face names
(never `top`/`bottom`), and for an arbitrary input face list the block mesh
contains no top or bottom panel: every panel it creates is tagged with one
of the four lateral names. -/
theorem addFace_tag (w : String) (fm : Material) : (addFace w fm).tag = some w := by
  unfold addFace
  split_ifs <;> rfl

theorem no_top_bottom (x z h : Int) (occ : Finset String)
    (faces : List String) (m : Material) :
    (exposedFacesFor x z h occ).all isLateral = true ∧
      ((createBlock faces m).filterMap Prim.tag).all isLateral = true := by
  constructor
  · unfold exposedFacesFor
    split_ifs <;> decide
  · simp only [createBlock, List.filterMap_append, List.all_append, Bool.and_eq_true]
    refine ⟨by simp [mkBar, List.filterMap_cons], ?_⟩
    have hstep :
        ((faces.filter fun f =>
            f == "front" || f == "back" || f == "left" || f == "right").map
          (fun f => addFace f (faceMatOf m))).filterMap Prim.tag =
          faces.filter fun f =>
            f == "front" || f == "back" || f == "left" || f == "right" := by
      rw [List.filterMap_map]
      have hfn : (Prim.tag ∘ fun f => addFace f (faceMatOf m)) = some :=
        funext fun f => addFace_tag f (faceMatOf m)
      rw [hfn, List.filterMap_some]
    rw [hstep, List.all_eq_true]
    intro f hf
    exact (List.mem_filter.mp hf).2

/-! ## Claim C9: the occupancy index -/

/-- Claim C9: the occupancy index has exactly one entry per distinct
(height-defaulted) coordinate of the source list — duplicates collapse, an
omitted height is keyed as height 0 — and a key query answers true iff the
coordinate occurs in the source list. -/
theorem occOf_spec (coords : List RawCoord) :
    (occOf coords).card = ((coords.map RawCoord.norm).toFinset).card ∧
      (∀ x z : Int, (RawCoord.mk x z none).norm = ⟨x, z, 0⟩) ∧
      (∀ x z h : Int,
        (key x z h ∈ occOf coords ↔ (⟨x, z, h⟩ : Coord) ∈ coords.map RawCoord.norm)) := by
  refine ⟨?_, fun x z => rfl, fun x z h => mem_occOf coords x z h⟩
  have hmaps : (coords.map fun c => c.norm.key) = (coords.map RawCoord.norm).map Coord.key := by
    rw [List.map_map]
    rfl
  rw [occOf, hmaps]
  have himg : ((coords.map RawCoord.norm).map Coord.key).toFinset =
      ((coords.map RawCoord.norm).toFinset).image Coord.key := by
    induction coords.map RawCoord.norm with
    | nil => simp
    | cons a l ih => simp [ih]
  rw [himg, Finset.card_image_of_injective _ Coord.key_inj]

/-! ## Claim C4: block mesh composition -/

theorem addFace_geom (w : String) (fm : Material) : (addFace w fm).geom = faceGeom := by
  unfold addFace
  split_ifs <;> rfl

theorem addFace_isBar (w : String) (fm : Material) : (addFace w fm).isBar = false := by
  rw [Prim.isBar, addFace_geom]
  rfl

theorem addFace_isPanel (w : String) (fm : Material) : (addFace w fm).isPanel = true := by
  rw [Prim.isPanel, addFace_geom]
  rfl

/-- Claim C4: for every duplicate-free list of lateral face names and every
material, the block mesh contains exactly 12 edge bars — 4 bottom
(`y = -size/2`), 4 top (`y = size/2`), 4 vertical — independently of the
face list, plus exactly one face panel per entry of the face list. -/
theorem createBlock_counts (faces : List String) (m : Material)
    (hnd : faces.Nodup) (hsub : faces.all isLateral = true) :
    (createBlock faces m).countP Prim.isBar = 12 ∧
      (createBlock faces m).countP
        (fun p => p.isBar && (p.pos.y == -(size / 2))) = 4 ∧
      (createBlock faces m).countP
        (fun p => p.isBar && (p.pos.y == size / 2)) = 4 ∧
      (createBlock faces m).countP (fun p => p.geom == vert) = 4 ∧
      (createBlock faces m).countP Prim.isPanel = faces.length := by
  have hfilter : faces.filter
      (fun f => f == "front" || f == "back" || f == "left" || f == "right") = faces := by
    rw [List.filter_eq_self]
    intro a ha
    exact (List.all_eq_true.mp hsub) a ha
  have hpanel0 : ∀ (q : Prim → Bool), (∀ w fm, q (addFace w fm) = false) →
      (faces.map fun f => addFace f (faceMatOf m)).countP q = 0 := by
    intro q hq
    rw [List.countP_eq_zero]
    intro p hp
    rcases List.mem_map.mp hp with ⟨f, _, rfl⟩
    simp [hq]
  constructor
  · simp only [createBlock, hfilter, List.countP_append]
    rw [hpanel0 Prim.isBar (fun w fm => addFace_isBar w fm)]
    simp [List.countP_cons, mkBar, Prim.isBar, horiz, depth, vert]
  constructor
  · simp only [createBlock, hfilter, List.countP_append]
    rw [hpanel0 _ (fun w fm => by rw [addFace_isBar]; rfl)]
    simp only [List.countP_cons, List.countP_nil, mkBar, Prim.isBar, Bool.and_eq_true,
      beq_iff_eq]
    norm_num [size, horiz, depth, vert]
  constructor
  · simp only [createBlock, hfilter, List.countP_append]
    rw [hpanel0 _ (fun w fm => by rw [addFace_isBar]; rfl)]
    simp only [List.countP_cons, List.countP_nil, mkBar, Prim.isBar, Bool.and_eq_true,
      beq_iff_eq]
    norm_num [size, horiz, depth, vert]
  constructor
  · simp only [createBlock, hfilter, List.countP_append]
    rw [hpanel0 _ (fun w fm => by
      have hg := addFace_geom w fm
      simp [hg, faceGeom, vert])]
    simp only [List.countP_cons, List.countP_nil, mkBar, beq_iff_eq]
    norm_num [horiz, depth, vert, size, thick, Geom.box.injEq]
  · simp only [createBlock, hfilter, List.countP_append]
    rw [List.countP_map]
    have hmap : (Prim.isPanel ∘ fun f => addFace f (faceMatOf m)) = fun _ => true :=
      funext fun f => addFace_isPanel f (faceMatOf m)
    rw [hmap]
    simp [List.countP_cons, mkBar, Prim.isPanel, horiz, depth, vert]

/-! ## Claim C5: partition placement -/

/-- Claim C5: a mesh is emitted by the partition builder iff it is the
divider of an x-adjacent same-height pair of listed cubes — a panel in the
Y–Z plane (rotation π/2 about y) centered at the midpoint `(x+0.5, h, z)` —
or of a z-adjacent pair — a panel in the X–Y plane (no rotation) centered at
the midpoint `(x, h, z+0.5)`. -/
theorem addInternalWalls_mem_iff (coords : List RawCoord) (m : Material) (p : Prim) :
    p ∈ addInternalWalls coords m ↔
      ((∃ x z h : Int, (⟨x, z, h⟩ : Coord) ∈ coords.map RawCoord.norm ∧
          (⟨x + 1, z, h⟩ : Coord) ∈ coords.map RawCoord.norm ∧
          p = xWall x z h (faceMatOf m)) ∨
        (∃ x z h : Int, (⟨x, z, h⟩ : Coord) ∈ coords.map RawCoord.norm ∧
          (⟨x, z + 1, h⟩ : Coord) ∈ coords.map RawCoord.norm ∧
          p = zWall x z h (faceMatOf m))) := by
  unfold addInternalWalls
  rw [List.mem_flatMap]
  constructor
  · rintro ⟨c, hc, hp⟩
    rw [List.mem_append] at hp
    have hcmem : (⟨c.x, c.z, c.h.getD 0⟩ : Coord) ∈ coords.map RawCoord.norm :=
      List.mem_map_of_mem RawCoord.norm hc
    rcases hp with hp | hp
    · by_cases hocc : key (c.x + 1) c.z (c.h.getD 0) ∈ occOf coords
      · rw [if_pos hocc] at hp
        exact Or.inl ⟨c.x, c.z, c.h.getD 0, hcmem,
          (mem_occOf coords _ _ _).mp hocc, List.mem_singleton.mp hp⟩
      · rw [if_neg hocc] at hp
        cases hp
    · by_cases hocc : key c.x (c.z + 1) (c.h.getD 0) ∈ occOf coords
      · rw [if_pos hocc] at hp
        exact Or.inr ⟨c.x, c.z, c.h.getD 0, hcmem,
          (mem_occOf coords _ _ _).mp hocc, List.mem_singleton.mp hp⟩
      · rw [if_neg hocc] at hp
        cases hp
  · rintro (⟨x, z, h, hxz, hnbr, hpw⟩ | ⟨x, z, h, hxz, hnbr, hpw⟩)
    · rcases List.mem_map.mp hxz with ⟨c, hc, hnorm⟩
      obtain ⟨hcx, hcz, hch⟩ :
          c.x = x ∧ c.z = z ∧ c.h.getD 0 = h := by
        refine ⟨congrArg Coord.x hnorm, congrArg Coord.z hnorm, congrArg Coord.h hnorm⟩
      refine ⟨c, hc, ?_⟩
      rw [List.mem_append]
      left
      rw [hcx, hcz, hch, if_pos ((mem_occOf coords _ _ _).mpr hnbr)]
      exact List.mem_singleton.mpr hpw
    · rcases List.mem_map.mp hxz with ⟨c, hc, hnorm⟩
      obtain ⟨hcx, hcz, hch⟩ :
          c.x = x ∧ c.z = z ∧ c.h.getD 0 = h := by
        refine ⟨congrArg Coord.x hnorm, congrArg Coord.z hnorm, congrArg Coord.h hnorm⟩
      refine ⟨c, hc, ?_⟩
      rw [List.mem_append]
      right
      rw [hcx, hcz, hch, if_pos ((mem_occOf coords _ _ _).mpr hnbr)]
      exact List.mem_singleton.mpr hpw

/-! ## Claim C2: partition count -/

/-- Same-height axis-adjacency in terms of the two scanned directions. -/
theorem sameHeightAdjacent_iff (a b : Coord) :
    sameHeightAdjacent a b ↔
      (b = xNbr a ∨ a = xNbr b ∨ b = zNbr a ∨ a = zNbr b) := by
  cases a with
  | mk ax az ah =>
    cases b with
    | mk bx bz bh =>
      simp only [sameHeightAdjacent, xNbr, zNbr, Coord.mk.injEq]
      constructor
      · rintro ⟨hh, ⟨hz, hx | hx⟩ | ⟨hx, hz | hz⟩⟩ <;> omega
      · rintro (⟨h1, h2, h3⟩ | ⟨h1, h2, h3⟩ | ⟨h1, h2, h3⟩ | ⟨h1, h2, h3⟩) <;> omega

/-- The per-cube emission count of `addInternalWalls`. -/
theorem addInternalWalls_length (coords : List RawCoord) (m : Material) :
    (addInternalWalls coords m).length =
      (coords.map fun c =>
        ((if key (c.x + 1) c.z (c.h.getD 0) ∈ occOf coords then 1 else 0) +
          (if key c.x (c.z + 1) (c.h.getD 0) ∈ occOf coords then 1 else 0))).sum := by
  unfold addInternalWalls
  rw [List.length_flatMap]
  congr 1
  apply List.map_congr_left
  intro c _
  by_cases h1 : key (c.x + 1) c.z (c.h.getD 0) ∈ occOf coords <;>
    by_cases h2 : key c.x (c.z + 1) (c.h.getD 0) ∈ occOf coords <;>
      simp [h1, h2]

/-- Claim C2 (amended: the coordinate list is duplicate-free after height
defaulting, as every catalog piece is): twice the number of partition panels
equals the number of ordered same-height axis-adjacent pairs of distinct
listed cubes — equivalently, there is exactly one panel per unordered
adjacent pair, since the adjacency is symmetric and irreflexive.  Only the
`+x` and `+z` directions are scanned, so vertical neighbors never produce a
panel. -/
theorem addInternalWalls_count (coords : List RawCoord) (m : Material)
    (hnd : (coords.map RawCoord.norm).Nodup) :
    2 * (addInternalWalls coords m).length =
      adjacentPairCount ((coords.map RawCoord.norm).toFinset) := by
  set S : Finset Coord := (coords.map RawCoord.norm).toFinset with hS
  have hmemS : ∀ a : Coord, a ∈ S ↔ a ∈ coords.map RawCoord.norm := by
    intro a
    rw [hS, List.mem_toFinset]
  -- Step 1: the panel count is the sum of the two neighbor indicators.
  have hlen : (addInternalWalls coords m).length =
      (S.filter fun a => xNbr a ∈ S).card + (S.filter fun a => zNbr a ∈ S).card := by
    rw [addInternalWalls_length]
    have hmap : (coords.map fun c =>
        ((if key (c.x + 1) c.z (c.h.getD 0) ∈ occOf coords then 1 else 0) +
          (if key c.x (c.z + 1) (c.h.getD 0) ∈ occOf coords then 1 else 0))) =
        (coords.map RawCoord.norm).map fun a =>
          ((if xNbr a ∈ S then 1 else 0) + (if zNbr a ∈ S then 1 else 0)) := by
      rw [List.map_map]
      apply List.map_congr_left
      intro c _
      have h1 : (key (c.x + 1) c.z (c.h.getD 0) ∈ occOf coords) ↔
          (xNbr c.norm ∈ S) := by
        rw [mem_occOf, hmemS]
        rfl
      have h2 : (key c.x (c.z + 1) (c.h.getD 0) ∈ occOf coords) ↔
          (zNbr c.norm ∈ S) := by
        rw [mem_occOf, hmemS]
        rfl
      simp only [Function.comp_apply]
      rw [if_congr h1 rfl rfl, if_congr h2 rfl rfl]
    rw [hmap, ← List.sum_toFinset _ hnd, ← hS, Finset.sum_add_distrib]
    rw [Finset.card_filter, Finset.card_filter]
  -- Step 2: the ordered adjacent pairs split into four disjoint copies.
  have himg1 : ((S ×ˢ S).filter fun q => q.2 = xNbr q.1) =
      (S.filter fun a => xNbr a ∈ S).image fun a => (a, xNbr a) := by
    ext ⟨u, v⟩
    simp only [Finset.mem_filter, Finset.mem_product, Finset.mem_image, Prod.mk.injEq]
    constructor
    · rintro ⟨⟨hu, hv⟩, rfl⟩
      exact ⟨u, ⟨hu, hv⟩, rfl, rfl⟩
    · rintro ⟨a, ⟨ha, hnb⟩, rfl, rfl⟩
      exact ⟨⟨ha, hnb⟩, rfl⟩
  have himg2 : ((S ×ˢ S).filter fun q => q.1 = xNbr q.2) =
      (S.filter fun a => xNbr a ∈ S).image fun a => (xNbr a, a) := by
    ext ⟨u, v⟩
    simp only [Finset.mem_filter, Finset.mem_product, Finset.mem_image, Prod.mk.injEq]
    constructor
    · rintro ⟨⟨hu, hv⟩, rfl⟩
      exact ⟨v, ⟨hv, hu⟩, rfl, rfl⟩
    · rintro ⟨a, ⟨ha, hnb⟩, rfl, rfl⟩
      exact ⟨⟨hnb, ha⟩, rfl⟩
  have himg3 : ((S ×ˢ S).filter fun q => q.2 = zNbr q.1) =
      (S.filter fun a => zNbr a ∈ S).image fun a => (a, zNbr a) := by
    ext ⟨u, v⟩
    simp only [Finset.mem_filter, Finset.mem_product, Finset.mem_image, Prod.mk.injEq]
    constructor
    · rintro ⟨⟨hu, hv⟩, rfl⟩
      exact ⟨u, ⟨hu, hv⟩, rfl, rfl⟩
    · rintro ⟨a, ⟨ha, hnb⟩, rfl, rfl⟩
      exact ⟨⟨ha, hnb⟩, rfl⟩
  have himg4 : ((S ×ˢ S).filter fun q => q.1 = zNbr q.2) =
      (S.filter fun a => zNbr a ∈ S).image fun a => (zNbr a, a) := by
    ext ⟨u, v⟩
    simp only [Finset.mem_filter, Finset.mem_product, Finset.mem_image, Prod.mk.injEq]
    constructor
    · rintro ⟨⟨hu, hv⟩, rfl⟩
      exact ⟨v, ⟨hv, hu⟩, rfl, rfl⟩
    · rintro ⟨a, ⟨ha, hnb⟩, rfl, rfl⟩
      exact ⟨⟨hnb, ha⟩, rfl⟩
  have hinj1 : Function.Injective fun a : Coord => (a, xNbr a) := by
    intro a b hab
    exact congrArg Prod.fst hab
  have hinj2 : Function.Injective fun a : Coord => (xNbr a, a) := by
    intro a b hab
    exact congrArg Prod.snd hab
  have hinj3 : Function.Injective fun a : Coord => (a, zNbr a) := by
    intro a b hab
    exact congrArg Prod.fst hab
  have hinj4 : Function.Injective fun a : Coord => (zNbr a, a) := by
    intro a b hab
    exact congrArg Prod.snd hab
  have hsplit : adjacentPairCount S =
      ((S ×ˢ S).filter fun q => q.2 = xNbr q.1).card +
        ((S ×ˢ S).filter fun q => q.1 = xNbr q.2).card +
        ((S ×ˢ S).filter fun q => q.2 = zNbr q.1).card +
        ((S ×ˢ S).filter fun q => q.1 = zNbr q.2).card := by
    unfold adjacentPairCount
    have hcong : ((S ×ˢ S).filter fun q => sameHeightAdjacent q.1 q.2) =
        (S ×ˢ S).filter fun q =>
          (q.2 = xNbr q.1 ∨ q.1 = xNbr q.2 ∨ q.2 = zNbr q.1 ∨ q.1 = zNbr q.2) := by
      apply Finset.filter_congr
      intro q _
      simp [sameHeightAdjacent_iff]
    rw [hcong]
    rw [Finset.filter_or, Finset.filter_or, Finset.filter_or]
    have hd34 : Disjoint ((S ×ˢ S).filter fun q => q.2 = zNbr q.1)
        ((S ×ˢ S).filter fun q => q.1 = zNbr q.2) := by
      rw [Finset.disjoint_left]
      rintro ⟨u, v⟩ h1 h2
      rw [Finset.mem_filter] at h1 h2
      have e1 : v = zNbr u := h1.2
      have e2 : u = zNbr v := h2.2
      rw [e2] at e1
      have ez := congrArg Coord.z e1
      simp only [zNbr] at ez
      omega
    have hd2_34 : Disjoint ((S ×ˢ S).filter fun q => q.1 = xNbr q.2)
        (((S ×ˢ S).filter fun q => q.2 = zNbr q.1) ∪
          ((S ×ˢ S).filter fun q => q.1 = zNbr q.2)) := by
      rw [Finset.disjoint_left]
      rintro ⟨u, v⟩ h1 h2
      rw [Finset.mem_filter] at h1
      rw [Finset.mem_union, Finset.mem_filter, Finset.mem_filter] at h2
      have e1 : u = xNbr v := h1.2
      rcases h2 with h2 | h2
      · have e2 : v = zNbr u := h2.2
        rw [e1] at e2
        have ex := congrArg Coord.x e2
        simp only [zNbr, xNbr] at ex
        omega
      · have e2 : u = zNbr v := h2.2
        have e := e1.symm.trans e2
        simp only [xNbr, zNbr, Coord.mk.injEq] at e
        omega
    have hd1_234 : Disjoint ((S ×ˢ S).filter fun q => q.2 = xNbr q.1)
        (((S ×ˢ S).filter fun q => q.1 = xNbr q.2) ∪
          (((S ×ˢ S).filter fun q => q.2 = zNbr q.1) ∪
            ((S ×ˢ S).filter fun q => q.1 = zNbr q.2))) := by
      rw [Finset.disjoint_left]
      rintro ⟨u, v⟩ h1 h2
      rw [Finset.mem_filter] at h1
      rw [Finset.mem_union, Finset.mem_union, Finset.mem_filter, Finset.mem_filter,
        Finset.mem_filter] at h2
      have e1 : v = xNbr u := h1.2
      rcases h2 with h2 | h2 | h2
      · have e2 : u = xNbr v := h2.2
        rw [e2] at e1
        have ex := congrArg Coord.x e1
        simp only [xNbr] at ex
        omega
      · have e2 : v = zNbr u := h2.2
        have e := e1.symm.trans e2
        simp only [xNbr, zNbr, Coord.mk.injEq] at e
        omega
      · have e2 : u = zNbr v := h2.2
        rw [e2] at e1
        have ex := congrArg Coord.x e1
        simp only [xNbr, zNbr] at ex
        omega
    rw [Finset.card_union_of_disjoint hd1_234, Finset.card_union_of_disjoint hd2_34,
      Finset.card_union_of_disjoint hd34]
    ring
  rw [hlen, hsplit, himg1, himg2, himg3, himg4,
    Finset.card_image_of_injective _ hinj1, Finset.card_image_of_injective _ hinj2,
    Finset.card_image_of_injective _ hinj3, Finset.card_image_of_injective _ hinj4]
  ring

/-- Claim C2, counterexample to the unrestricted statement: on a coordinate
list with a duplicated cube the builder emits one panel per *listed* cube
with an occupied `+x`/`+z` neighbor, so the duplicate emits a second panel
for the same unordered pair (2 panels, 1 pair). -/
theorem addInternalWalls_count_dup :
    ¬ (2 * (addInternalWalls [coord 0 0 0, coord 0 0 0, coord 1 0 0]
          (lambert 0xe74c3c)).length =
        adjacentPairCount
          (([coord 0 0 0, coord 0 0 0, coord 1 0 0].map RawCoord.norm).toFinset)) := by
  decide

/-! ## Claim C6: centering -/

/-- A translated box: how `Box3` moves under a group translation. -/
def translateBox (v : Vec3) (b : Box) : Box :=
  ⟨b.min.add v, b.max.add v⟩

theorem halfExtents_translatePrim (v : Vec3) (p : Prim) :
    halfExtents (translatePrim v p) = halfExtents p := rfl

theorem primBox_translatePrim (v : Vec3) (p : Prim) :
    primBox (translatePrim v p) = translateBox v (primBox p) := by
  unfold primBox translateBox
  rw [halfExtents_translatePrim]
  congr 1 <;> ext <;>
    simp [translatePrim, Vec3.add, Vec3.sub] <;> ring

theorem unionBox_translateBox (v : Vec3) (a b : Box) :
    unionBox (translateBox v a) (translateBox v b) = translateBox v (unionBox a b) := by
  unfold unionBox translateBox
  congr 1 <;> ext <;>
    simp [Vec3.add, min_add_add_right, max_add_add_right]

theorem foldl_unionBox_translateBox (v : Vec3) :
    ∀ (l : List Box) (acc : Box),
      (l.map (translateBox v)).foldl unionBox (translateBox v acc) =
        translateBox v (l.foldl unionBox acc) := by
  intro l
  induction l with
  | nil => intro acc; rfl
  | cons b bs ih =>
    intro acc
    simp only [List.map_cons, List.foldl_cons]
    rw [unionBox_translateBox]
    exact ih _

theorem bboxOf_map_translatePrim (v : Vec3) (l : List Prim) :
    bboxOf (l.map (translatePrim v)) = (bboxOf l).map (translateBox v) := by
  cases l with
  | nil => rfl
  | cons p ps =>
    simp only [List.map_cons, bboxOf]
    have hmm : (ps.map (translatePrim v)).map primBox =
        (ps.map primBox).map (translateBox v) := by
      rw [List.map_map, List.map_map]
      apply List.map_congr_left
      intro q _
      exact primBox_translatePrim v q
    rw [hmm, primBox_translatePrim, foldl_unionBox_translateBox]
    rfl

theorem centerOf_translateBox (v : Vec3) (b : Box) :
    centerOf (translateBox v b) = (centerOf b).add v := by
  ext <;> simp [centerOf, translateBox, Vec3.add] <;> ring

theorem createBlock_ne_nil (faces : List String) (m : Material) :
    createBlock faces m ≠ [] := by
  simp [createBlock]

theorem assemblePiece_ne_nil (data : List RawCoord) (h : data ≠ []) :
    assemblePiece data ≠ [] := by
  cases data with
  | nil => exact absurd rfl h
  | cons c cs =>
    simp only [assemblePiece, List.flatMap_cons, List.append_assoc]
    intro he
    rcases List.append_eq_nil.mp he with ⟨h1, _⟩
    exact createBlock_ne_nil _ _ (List.map_eq_nil_iff.mp h1)

/-- Any nonempty piece has a bounding box after centering, and its center is
exactly the origin. -/
theorem generatedPiece_centered (data : List RawCoord) (hne : data ≠ []) :
    ∃ b, bboxOf (generatedPiece data) = some b ∧ centerOf b = ⟨0, 0, 0⟩ := by
  obtain ⟨b₀, hb₀⟩ : ∃ b₀, bboxOf (assemblePiece data) = some b₀ := by
    rcases hl : assemblePiece data with _ | ⟨p, ps⟩
    · exact absurd hl (assemblePiece_ne_nil data hne)
    · exact ⟨_, rfl⟩
  refine ⟨translateBox (centerOf b₀).neg b₀, ?_, ?_⟩
  · rw [generatedPiece, centerPiece, hb₀, bboxOf_map_translatePrim, hb₀]
    rfl
  · rw [centerOf_translateBox]
    ext <;> simp [Vec3.add, Vec3.neg]

/-- Claim C6: for every piece definition in the catalog, the axis-aligned
bounding-box center of the assembled piece after the centering translation
is the origin (exactly, in the rational model). -/
theorem generatedPiece_centered_catalog (data : List RawCoord) (hd : data ∈ pieces) :
    ∃ b, bboxOf (generatedPiece data) = some b ∧ centerOf b = ⟨0, 0, 0⟩ := by
  apply generatedPiece_centered
  fin_cases hd <;> simp

/-! ## Claim C7: scene lifecycle -/

/-- The pivot→piece links created by the first `k` generations: call `j`
(0-based) allocates piece id `2j` and then pivot id `2j + 1`. -/
def linkList (k : Nat) : List (Nat × Nat) :=
  (List.range k).map fun j => (2 * j + 1, 2 * j)

/-- The shape of the generator state after `k ≥ 1` generations: exactly the
latest pivot is a scene child, and the latest piece and pivot are current. -/
def GoodState (s : AppState) (k : Nat) : Prop :=
  1 ≤ k ∧ s.counter = 2 * k ∧ s.currentPiece = some (2 * k - 2) ∧
    s.pivot = some (2 * k - 1) ∧ s.sceneChildren = [2 * k - 1] ∧
    s.links = linkList k

theorem linkList_succ (k : Nat) :
    linkList (k + 1) = linkList k ++ [(2 * k + 1, 2 * k)] := by
  simp [linkList, List.range_succ]

/-- `generateNewPiece` on a state that already holds a piece and a pivot. -/
theorem generateNewPiece_eq (d : List RawCoord) (s : AppState) (p q : Nat)
    (hcp : s.currentPiece = some p) (hp : s.pivot = some q) :
    generateNewPiece d s =
      { counter := s.counter + 2
        currentPiece := some s.counter
        pivot := some (s.counter + 1)
        sceneChildren := sceneRemove (sceneRemove s.sceneChildren p) q ++ [s.counter + 1]
        links := s.links ++ [(s.counter + 1, s.counter)]
        pivotRot := (0, 0)
        pieceGeom := centerPiece (assemblePiece d) } := by
  unfold generateNewPiece
  rw [hcp, hp]

theorem generateNewPiece_good (d : List RawCoord) (s : AppState) (k : Nat)
    (hg : GoodState s k) : GoodState (generateNewPiece d s) (k + 1) := by
  obtain ⟨hk, hc, hcp, hp, hsc, hl⟩ := hg
  rw [generateNewPiece_eq d s _ _ hcp hp]
  have hbeq : ((2 * k - 1 : Nat) == 2 * k - 2) = false := by
    simp only [beq_eq_false_iff_ne, ne_eq]
    omega
  have hsc1 : sceneRemove s.sceneChildren (2 * k - 2) = [2 * k - 1] := by
    rw [hsc]
    simp [sceneRemove, List.erase_cons, hbeq]
  have hsc2 : sceneRemove (sceneRemove s.sceneChildren (2 * k - 2)) (2 * k - 1) = [] := by
    rw [hsc1]
    simp [sceneRemove, List.erase_cons]
  unfold GoodState
  refine ⟨by omega, ?_, ?_, ?_, ?_, ?_⟩
  · show s.counter + 2 = 2 * (k + 1)
    omega
  · show some s.counter = some (2 * (k + 1) - 2)
    rw [hc]
    congr 1
  · show some (s.counter + 1) = some (2 * (k + 1) - 1)
    rw [hc]
    congr 1
  · show sceneRemove (sceneRemove s.sceneChildren (2 * k - 2)) (2 * k - 1) ++
        [s.counter + 1] = [2 * (k + 1) - 1]
    rw [hsc2, List.nil_append, hc]
    congr 2
  · show s.links ++ [(s.counter + 1, s.counter)] = linkList (k + 1)
    rw [hl, hc, linkList_succ]

theorem generateNewPiece_good_init (d : List RawCoord) :
    GoodState (generateNewPiece d initState) 1 := by
  refine ⟨le_refl 1, rfl, rfl, rfl, rfl, rfl⟩

theorem runGen_good :
    ∀ (ds : List (List RawCoord)) (s : AppState) (k : Nat),
      GoodState s k → GoodState (runGen ds s) (k + ds.length) := by
  intro ds
  induction ds with
  | nil => intro s k h; simpa [runGen] using h
  | cons d tds ih =>
    intro s k h
    have h2 := ih (generateNewPiece d s) (k + 1) (generateNewPiece_good d s k h)
    have hru : runGen (d :: tds) s = runGen tds (generateNewPiece d s) := rfl
    have hlen : k + (d :: tds).length = (k + 1) + tds.length := by
      simp [List.length_cons]
      omega
    rw [hru, hlen]
    exact h2

theorem childrenOf_linkList (k : Nat) (hk : 1 ≤ k) :
    childrenOf (linkList k) (2 * k - 1) = [2 * k - 2] := by
  obtain ⟨j, rfl⟩ : ∃ j, k = j + 1 := ⟨k - 1, by omega⟩
  have h3 : 2 * (j + 1) - 1 = 2 * j + 1 := by omega
  have h2 : 2 * (j + 1) - 2 = 2 * j := by omega
  rw [h3, h2]
  unfold childrenOf
  rw [linkList_succ, List.filter_append]
  have hnil : (linkList j).filter (fun e => e.1 == 2 * j + 1) = [] := by
    rw [List.filter_eq_nil_iff]
    rintro ⟨a, b⟩ hab
    rcases List.mem_map.mp hab with ⟨i, hi, hieq⟩
    rw [List.mem_range] at hi
    cases hieq
    intro hbeq
    have := Nat.eq_of_beq_eq_true (by simpa using hbeq)
    omega
  rw [hnil, List.nil_append]
  simp [List.filter_cons]

/-- Claim C7: after `N ≥ 1` successive `generateNewPiece()` calls (with any
sequence of selected piece definitions), the scene holds exactly one pivot —
the one created by the last call — that pivot holds exactly the piece
created by the last call, and no piece or anchor of an earlier call is
attached to the scene directly or transitively. -/
theorem scene_single_piece (datas : List (List RawCoord)) (hne : datas ≠ []) :
    (runGen datas initState).sceneChildren = [2 * datas.length - 1] ∧
      (runGen datas initState).pivot = some (2 * datas.length - 1) ∧
      (runGen datas initState).currentPiece = some (2 * datas.length - 2) ∧
      attachedTo (runGen datas initState) =
        [2 * datas.length - 1, 2 * datas.length - 2] := by
  rcases datas with _ | ⟨d, ds⟩
  · exact absurd rfl hne
  · have hg := runGen_good ds (generateNewPiece d initState) 1
      (generateNewPiece_good_init d)
    have hru : runGen (d :: ds) initState = runGen ds (generateNewPiece d initState) := rfl
    have hlen : (d :: ds).length = 1 + ds.length := by
      simp [List.length_cons]
      omega
    obtain ⟨hk, hc, hcp, hp, hsc, hl⟩ := hg
    rw [hru, hlen]
    refine ⟨hsc, hp, hcp, ?_⟩
    unfold attachedTo
    rw [hsc, hl]
    have hch := childrenOf_linkList (1 + ds.length) (by omega)
    simp [hch]

/-! ## Claim C8: determinism of the geometric output -/

/-- Claim C8: for a fixed piece definition the generation pipeline is
deterministic — the geometry mounted by `generateNewPiece` is a pure
function of the definition, so it is identical across repeated invocations
from any two states (in particular across immediately repeated calls), as is
its bounding box. -/
theorem generateNewPiece_deterministic (d : List RawCoord) (s₁ s₂ : AppState) :
    (generateNewPiece d s₁).pieceGeom = generatedPiece d ∧
      (generateNewPiece d s₂).pieceGeom = (generateNewPiece d s₁).pieceGeom ∧
      (generateNewPiece d (generateNewPiece d s₁)).pieceGeom =
        (generateNewPiece d s₁).pieceGeom ∧
      bboxOf (generateNewPiece d s₂).pieceGeom =
        bboxOf (generateNewPiece d s₁).pieceGeom :=
  ⟨rfl, rfl, rfl, rfl⟩

/-! ## Claim C10: the anchor starts at the identity orientation -/

/-- Claim C10: every generation mounts the new piece under a freshly created
pivot whose rotation is the identity, discarding any orientation accumulated
on the previous anchor: whatever rotation the state carried, the pivot
rotation after the call is `(0, 0)`, the new pivot is the freshly allocated
object, and the new piece is its child. -/
theorem pivot_reset (d : List RawCoord) (s : AppState) :
    (generateNewPiece d s).pivotRot = (0, 0) ∧
      (generateNewPiece d s).pivot = some (s.counter + 1) ∧
      (generateNewPiece d s).currentPiece = some s.counter ∧
      (s.counter + 1, s.counter) ∈ (generateNewPiece d s).links := by
  refine ⟨rfl, rfl, rfl, ?_⟩
  simp [generateNewPiece]

/-! ## Witnesses

Each hypothesis-bearing claim theorem is instantiated at a concrete input,
with its hypotheses discharged by evaluation. -/

/-- Witness for Claim C2 at the catalog's L piece (3 adjacent pairs). -/
theorem addInternalWalls_count_wit :
    (([coord 0 0 0, coord 1 0 0, coord 2 0 0, coord 2 1 0].map RawCoord.norm).Nodup) ∧
      2 * (addInternalWalls [coord 0 0 0, coord 1 0 0, coord 2 0 0, coord 2 1 0]
            (lambert 0xe74c3c)).length =
        adjacentPairCount
          (([coord 0 0 0, coord 1 0 0, coord 2 0 0,
              coord 2 1 0].map RawCoord.norm).toFinset) :=
  ⟨by decide, addInternalWalls_count _ _ (by decide)⟩

/-- Witness for Claim C4 at the face list `["front", "left"]`. -/
theorem createBlock_counts_wit :
    ((["front", "left"] : List String).Nodup ∧
        (["front", "left"] : List String).all isLateral = true) ∧
      ((createBlock ["front", "left"] (lambert 0xe74c3c)).countP Prim.isBar = 12 ∧
        (createBlock ["front", "left"] (lambert 0xe74c3c)).countP
          (fun p => p.isBar && (p.pos.y == -(size / 2))) = 4 ∧
        (createBlock ["front", "left"] (lambert 0xe74c3c)).countP
          (fun p => p.isBar && (p.pos.y == size / 2)) = 4 ∧
        (createBlock ["front", "left"] (lambert 0xe74c3c)).countP
          (fun p => p.geom == vert) = 4 ∧
        (createBlock ["front", "left"] (lambert 0xe74c3c)).countP Prim.isPanel =
          (["front", "left"] : List String).length) :=
  ⟨⟨by decide, by decide⟩, createBlock_counts _ _ (by decide) (by decide)⟩

/-- Witness for Claim C6 at the catalog's I piece. -/
theorem generatedPiece_centered_catalog_wit :
    ([coord 0 0 0, coord 1 0 0, coord 2 0 0, coord 3 0 0] ∈ pieces) ∧
      ∃ b, bboxOf (generatedPiece
          [coord 0 0 0, coord 1 0 0, coord 2 0 0, coord 3 0 0]) = some b ∧
        centerOf b = ⟨0, 0, 0⟩ :=
  ⟨by decide, generatedPiece_centered_catalog _ (by decide)⟩

/-- Witness for Claim C7 after a single generation. -/
theorem scene_single_piece_wit :
    (([[coord 0 0 0]] : List (List RawCoord)) ≠ []) ∧
      ((runGen [[coord 0 0 0]] initState).sceneChildren = [1] ∧
        (runGen [[coord 0 0 0]] initState).pivot = some 1 ∧
        (runGen [[coord 0 0 0]] initState).currentPiece = some 0 ∧
        attachedTo (runGen [[coord 0 0 0]] initState) = [1, 0]) :=
  ⟨by decide, scene_single_piece _ (by decide)⟩

end TetraBalance
